import Mathlib

/-!
# Verification of the WASM host runtime (wasmer-go capability host)

This file gives a shallow embedding of the Go WASM host: the four capability
functions (`getField`, `putField`, `log`, `getCurrentTime`) registered under
the `elastic` namespace, together with the guest-memory access discipline they
actually use (Go slice expressions over the instance's linear memory, 32-bit
signed index arithmetic, little-endian `PutUint32`/`PutUint64` stores), and a
value codec modelled from the specification (the code delegates encoding to a
JSON library; the spec treats the exact byte layout as swappable).

Conventions of the embedding:
* guest-memory bytes are `Nat`s (each write stores a value reduced mod 256);
* a Go `int32` is an `Int`, with `wrap32` applied wherever Go performs 32-bit
  addition (Go wraps on overflow);
* a Go slice expression `mem[lo:hi]` is guarded by `sliceOk`: Go panics when
  the range is invalid, which the embedding records as `HostOutcome.panic`;
* a wasmer-go host function returns a `([]wasmer.Value, error)` pair; the
  embedding records the returned status value (`none` models a `nil` value
  list) and whether the Go `error` was non-nil, plus the resulting memory.
-/

namespace GoExamples

/-! ## Status and log-level enumerations (source: `type Status int32`, `type LogLevel int32`) -/

def StatusOK : Int := 0
def StatusInternalFailure : Int := 1
def StatusInvalidArgument : Int := 2
def StatusNotFound : Int := 3

def LogLevelDebug : Int := 0
def LogLevelInfo : Int := 1
def LogLevelWarn : Int := 2
def LogLevelError : Int := 3
def LogLevelCritical : Int := 4

/-! ## Guest linear memory and Go slice semantics -/

/-- The instance's linear memory: `memory.Data()` is a byte slice of length
`size`; `byteAt i` is the byte stored at offset `i`. -/
structure Mem where
  size : Nat
  byteAt : Nat → Nat

/-- 32-bit signed wrap-around: the value of a Go `int32` addition result. -/
def wrap32 (n : Int) : Int :=
  (n + 2 ^ 31) % 2 ^ 32 - 2 ^ 31

/-- Reinterpret a Go `int32` value as `uint32` (the `uint32(v)` conversion). -/
def toU32 (n : Int) : Nat :=
  (n % 2 ^ 32).toNat

/-- Reinterpret a Go `int64` value as `uint64` (the `uint64(v)` conversion). -/
def toU64 (n : Int) : Nat :=
  (n % 2 ^ 64).toNat

/-- Validity of the Go slice expression `mem[lo:hi]`: Go panics unless
`0 ≤ lo ≤ hi ≤ len(mem)`. -/
def sliceOk (m : Mem) (lo hi : Int) : Bool :=
  decide (0 ≤ lo) && decide (lo ≤ hi) && decide (hi ≤ (m.size : Int))

/-- The bytes of the Go slice `mem[lo:hi]` (meaningful under `sliceOk`). -/
def readSlice (m : Mem) (lo hi : Int) : List Nat :=
  (List.range (hi - lo).toNat).map fun i => m.byteAt (lo.toNat + i)

/-- Overwrite memory starting at offset `lo` with the bytes `bs` (each stored
reduced mod 256, as a Go byte store does). -/
def writeBytes (m : Mem) (lo : Int) (bs : List Nat) : Mem where
  size := m.size
  byteAt := fun i =>
    if lo.toNat ≤ i ∧ i < lo.toNat + bs.length then bs.getD (i - lo.toNat) 0 % 256
    else m.byteAt i

/-- `binary.LittleEndian.PutUint32`: the four little-endian bytes of `v`. -/
def putUint32LE (v : Nat) : List Nat :=
  [v % 256, v / 256 % 256, v / 256 ^ 2 % 256, v / 256 ^ 3 % 256]

/-- `binary.LittleEndian.PutUint64`: the eight little-endian bytes of `v`. -/
def putUint64LE (v : Nat) : List Nat :=
  [v % 256, v / 256 % 256, v / 256 ^ 2 % 256, v / 256 ^ 3 % 256,
   v / 256 ^ 4 % 256, v / 256 ^ 5 % 256, v / 256 ^ 6 % 256, v / 256 ^ 7 % 256]

/-- Read back a little-endian byte list as a number (used to state what the
stored 8-byte timestamp denotes). -/
def fromLEBytes : List Nat → Nat
  | [] => 0
  | b :: bs => b % 256 + 256 * fromLEBytes bs

/-! ## The host module state and host-function outcomes -/

/-- The host-side module state visible to a capability call: the result of
`instance.Exports.GetMemory("memory")` (`none` models lookup failure) and the
guest's exported allocator `mallocFunc` (`none` models a call that returns an
error). The source's `wasmModule` struct holds nothing else that a capability
function reads or writes. -/
structure WasmModule where
  mem? : Option Mem
  mallocFunc : Int → Option Int

/-- `m.malloc(size)`: forwards to the guest's exported `malloc`. -/
def WasmModule.malloc (m : WasmModule) (size : Int) : Option Int :=
  m.mallocFunc size

/-- Outcome of one wasmer-go host-function call body:
* `panic` — a Go runtime panic (invalid slice range) aborted the call;
* `ret mem? status goErr` — the body returned, leaving memory `mem?`,
  returning the wasmer value list `status` (`none` for a `nil` list, `some s`
  for `[]wasmer.Value{wasmer.NewI32(s)}`), with `goErr` true when the returned
  Go `error` was non-nil. -/
inductive HostOutcome where
  | panic : HostOutcome
  | ret : Option Mem → Option Int → Bool → HostOutcome

/-- The in-band status value a guest could observe from an outcome. -/
def inBandStatus : HostOutcome → Option Int
  | .panic => none
  | .ret _ s _ => s

/-- UTF-8 bytes of the literal `"message"` compared against the field name. -/
def messageBytes : List Nat :=
  "message".toList.map Char.toNat

/-- The hard-coded hex string returned for the `message` field. -/
def rawMessage : String :=
  "df00000001a464617461ab68656c6c6f20776f726c64"

/-- `json.Marshal(raw)` for the string `rawMessage`: the string quoted (no
characters need escaping), as bytes. -/
def encodedMessageValue : List Nat :=
  (("\"" ++ rawMessage) ++ "\"").toList.map Char.toNat

/-- `wasmModule.getField(args)`: argument-count check, memory lookup, read of
the field name via a Go slice, hard-coded lookup against `"message"`, and on a
hit the allocate-then-copy sequence followed by the two little-endian
out-parameter stores. -/
def getField (m : WasmModule) (args : List Int) : HostOutcome :=
  if args.length ≠ 4 then .ret m.mem? none true
  else
    let dataPtr := args.getD 0 0
    let dataLen := args.getD 1 0
    let rtnPtr := args.getD 2 0
    let rtnLen := args.getD 3 0
    match m.mem? with
    | none => .ret none none true
    | some mem =>
      let hiD := wrap32 (dataPtr + dataLen)
      if sliceOk mem dataPtr hiD then
        let data := readSlice mem dataPtr hiD
        if data = messageBytes then
          let value := encodedMessageValue
          let valueSize : Int := wrap32 (value.length : Int)
          match m.malloc valueSize with
          | none => .ret m.mem? none true
          | some valuePtr =>
            let hiV := wrap32 (valuePtr + valueSize)
            if sliceOk mem valuePtr hiV then
              let mem1 := writeBytes mem valuePtr (value.take (hiV - valuePtr).toNat)
              let hiP := wrap32 (rtnPtr + 4)
              if sliceOk mem1 rtnPtr hiP then
                let mem2 := writeBytes mem1 rtnPtr (putUint32LE (toU32 valuePtr))
                let hiL := wrap32 (rtnLen + 4)
                if sliceOk mem2 rtnLen hiL then
                  let mem3 := writeBytes mem2 rtnLen (putUint32LE (toU32 valueSize))
                  .ret (some mem3) (some 0) false
                else .panic
              else .panic
            else .panic
        else .ret m.mem? (some 0) false
      else .panic

/-- `wasmModule.putField(args)`: reads the key and value slices, then attempts
to decode the value. `dec` models `json.Unmarshal` succeeding on the value
bytes; the decoded value is only logged, so only success/failure matters. -/
def putField (dec : List Nat → Bool) (m : WasmModule) (args : List Int) : HostOutcome :=
  if args.length ≠ 4 then .ret m.mem? none true
  else
    let keyPtr := args.getD 0 0
    let keyLen := args.getD 1 0
    let valuePtr := args.getD 2 0
    let valueLen := args.getD 3 0
    match m.mem? with
    | none => .ret none (some StatusInternalFailure) true
    | some mem =>
      let hiK := wrap32 (keyPtr + keyLen)
      if sliceOk mem keyPtr hiK then
        let hiV := wrap32 (valuePtr + valueLen)
        if sliceOk mem valuePtr hiV then
          let value := readSlice mem valuePtr hiV
          if dec value then .ret m.mem? (some StatusOK) false
          else .ret m.mem? (some StatusInvalidArgument) true
        else .panic
      else .panic

/-- `wasmModule.log(args)`: reads the message slice and returns 0; the level
argument (`args[0]`) is only formatted into the log line. -/
def log (m : WasmModule) (args : List Int) : HostOutcome :=
  if args.length ≠ 3 then .ret m.mem? none true
  else
    let dataPtr := args.getD 1 0
    let dataLen := args.getD 2 0
    match m.mem? with
    | none => .ret none none true
    | some mem =>
      let hi := wrap32 (dataPtr + dataLen)
      if sliceOk mem dataPtr hi then .ret m.mem? (some 0) false
      else .panic

/-- `wasmModule.getCurrentTime(args)`: stores `uint64(time.Now().UnixNano())`
little-endian at `args[0]`; `now` is the `int64` nanosecond reading taken by
this call. -/
def getCurrentTime (m : WasmModule) (now : Int) (args : List Int) : HostOutcome :=
  if args.length ≠ 1 then .ret m.mem? none true
  else
    let ptr := args.getD 0 0
    match m.mem? with
    | none => .ret none none true
    | some mem =>
      let hi := wrap32 (ptr + 8)
      if sliceOk mem ptr hi then
        .ret (some (writeBytes mem ptr (putUint64LE (toU64 now)))) (some 0) false
      else .panic

/-- The memory a hit of `getField` leaves behind: the encoded value copied to
the allocated buffer at `p`, then the two little-endian out-parameter stores,
in source order. -/
def getFieldHitMem (mem : Mem) (p rtnPtr rtnLen : Int) : Mem :=
  writeBytes
    (writeBytes (writeBytes mem p encodedMessageValue) rtnPtr (putUint32LE (toU32 p)))
    rtnLen (putUint32LE (toU32 (encodedMessageValue.length : Int)))

/-! ## Concrete instances (used to evaluate the host functions) -/

/-- A 70-byte linear memory holding the field name `message` at offset 0. -/
def memMsg : Mem := ⟨70, fun i => messageBytes.getD i 0⟩

/-- A module whose allocator always succeeds at offset 8. -/
def modMsg : WasmModule := ⟨some memMsg, fun _ => some 8⟩

/-- A module whose guest allocator always fails. -/
def modNoAlloc : WasmModule := ⟨some memMsg, fun _ => none⟩

/-! ## Value Codec (spec-modelled)

Modelled from the spec: the repository delegates value encoding to a JSON
library and the spec's §4.2 treats the exact byte layout as swappable, so the
Value Codec itself is not code under `src/`. The definitions below follow the
spec's words: a `FieldValue` is one of {null, boolean, integer, float, string,
byte-sequence, ordered sequence, string-keyed mapping}; `encode` produces a
deterministic, self-describing, self-delimiting byte form; `decode` consumes
exactly the bytes passed and fails (`none`, the model of `CodecError`) on
malformed input. A float is carried as its 64-bit bit pattern, a byte as a
value below 256. -/

/-- A dynamic field value (spec §3). -/
inductive FieldValue where
  | null : FieldValue
  | boolean : Bool → FieldValue
  | integer : Int → FieldValue
  | float : Fin (2 ^ 64) → FieldValue
  | str : String → FieldValue
  | bytes : List (Fin 256) → FieldValue
  | seq : List FieldValue → FieldValue
  | mapping : List (String × FieldValue) → FieldValue

/-- Little-endian base-255 digits of a number (each digit below 255, most
significant last, no trailing zero digit). -/
def natDigits (n : Nat) : List Nat :=
  if h : n = 0 then [] else n % 255 :: natDigits (n / 255)
decreasing_by exact Nat.div_lt_self (Nat.pos_of_ne_zero h) (by norm_num)

/-- Read base-255 digits back as a number. -/
def ofDigits : List Nat → Nat
  | [] => 0
  | d :: ds => d + 255 * ofDigits ds

/-- Self-delimiting number wire form: base-255 digits closed by the byte 255. -/
def encodeNat (n : Nat) : List Nat :=
  natDigits n ++ [255]

/-- Consume bytes up to the 255 terminator, requiring every digit byte to be a
digit (below 255); returns the digits and the unconsumed tail. -/
def decodeNatAux : List Nat → Option (List Nat × List Nat)
  | [] => none
  | b :: bs =>
    if b = 255 then some ([], bs)
    else if b < 255 then
      match decodeNatAux bs with
      | some (ds, rest) => some (b :: ds, rest)
      | none => none
    else none

/-- Decode one number off the front of the input; rejects a non-canonical
trailing zero digit, a missing terminator, and non-digit bytes. -/
def decodeNat (bs : List Nat) : Option (Nat × List Nat) :=
  match decodeNatAux bs with
  | some (ds, rest) => if ds.getLast? = some 0 then none else some (ofDigits ds, rest)
  | none => none

/-- A character is carried as its Unicode scalar value. -/
def encodeChar (c : Char) : List Nat :=
  encodeNat c.toNat

/-- Decode one character; fails on a number that is not a valid scalar value
(the model of invalid-UTF-8 rejection). -/
def decodeChar (bs : List Nat) : Option (Char × List Nat) :=
  match decodeNat bs with
  | some (n, rest) => if h : n.isValidChar then some (Char.ofNatAux n h, rest) else none
  | none => none

/-- Characters of a string, back to back. -/
def encodeChars : List Char → List Nat
  | [] => []
  | c :: cs => encodeChar c ++ encodeChars cs

/-- Decode exactly `count` characters. -/
def decodeChars : Nat → List Nat → Option (List Char × List Nat)
  | 0, bs => some ([], bs)
  | count + 1, bs =>
    match decodeChar bs with
    | some (c, bs1) =>
      match decodeChars count bs1 with
      | some (cs, bs2) => some (c :: cs, bs2)
      | none => none
    | none => none

/-- A string: character count, then its characters. -/
def encodeStr (s : String) : List Nat :=
  encodeNat s.data.length ++ encodeChars s.data

/-- Decode one string off the front of the input. -/
def decodeStr (bs : List Nat) : Option (String × List Nat) :=
  match decodeNat bs with
  | some (n, bs1) =>
    match decodeChars n bs1 with
    | some (cs, bs2) => some (String.mk cs, bs2)
    | none => none
  | none => none

/-- An integer: a sign byte (0 nonnegative, 1 negative), then the magnitude. -/
def encodeInt (i : Int) : List Nat :=
  if 0 ≤ i then 0 :: encodeNat i.toNat else 1 :: encodeNat (-i).toNat

/-- Decode one integer; a negative zero magnitude is rejected as
non-canonical. -/
def decodeInt (bs : List Nat) : Option (Int × List Nat) :=
  match bs with
  | [] => none
  | s :: bs1 =>
    if s = 0 then
      match decodeNat bs1 with
      | some (n, rest) => some ((n : Int), rest)
      | none => none
    else if s = 1 then
      match decodeNat bs1 with
      | some (n, rest) => if n = 0 then none else some (-(n : Int), rest)
      | none => none
    else none

/-- Raw bytes of a byte-sequence, back to back. -/
def encodeByteSeq (ds : List (Fin 256)) : List Nat :=
  ds.map Fin.val

/-- Decode exactly `count` raw bytes, each required to be below 256. -/
def decodeByteSeq : Nat → List Nat → Option (List (Fin 256) × List Nat)
  | 0, bs => some ([], bs)
  | _ + 1, [] => none
  | count + 1, b :: bs =>
    if h : b < 256 then
      match decodeByteSeq count bs with
      | some (ds, rest) => some (⟨b, h⟩ :: ds, rest)
      | none => none
    else none

mutual

/-- Wire form of a `FieldValue`: a one-byte variant tag, then the payload.
Sequences and mappings are element-count prefixed. -/
def encodeVal : FieldValue → List Nat
  | .null => [0]
  | .boolean b => [1, if b then 1 else 0]
  | .integer i => 2 :: encodeInt i
  | .float bits => 3 :: encodeNat bits.val
  | .str s => 4 :: encodeStr s
  | .bytes ds => 5 :: (encodeNat ds.length ++ encodeByteSeq ds)
  | .seq xs => 6 :: (encodeNat xs.length ++ encodeVals xs)
  | .mapping kvs => 7 :: (encodeNat kvs.length ++ encodeKVs kvs)

/-- Encodings of a list of values, back to back. -/
def encodeVals : List FieldValue → List Nat
  | [] => []
  | x :: xs => encodeVal x ++ encodeVals xs

/-- Encodings of a list of key/value pairs, back to back. -/
def encodeKVs : List (String × FieldValue) → List Nat
  | [] => []
  | (k, v) :: kvs => encodeStr k ++ (encodeVal v ++ encodeKVs kvs)

end

mutual

/-- Nesting depth of a value (1 for a leaf). -/
def depthVal : FieldValue → Nat
  | .null => 1
  | .boolean _ => 1
  | .integer _ => 1
  | .float _ => 1
  | .str _ => 1
  | .bytes _ => 1
  | .seq xs => 1 + depthVals xs
  | .mapping kvs => 1 + depthKVs kvs

/-- Largest nesting depth among a list of values. -/
def depthVals : List FieldValue → Nat
  | [] => 0
  | x :: xs => max (depthVal x) (depthVals xs)

/-- Largest nesting depth among the values of a key/value list. -/
def depthKVs : List (String × FieldValue) → Nat
  | [] => 0
  | (_, v) :: kvs => max (depthVal v) (depthKVs kvs)

end

/-- Decode exactly `count` values with the element decoder `d`. -/
def decodeListWith (d : List Nat → Option (FieldValue × List Nat)) :
    Nat → List Nat → Option (List FieldValue × List Nat)
  | 0, bs => some ([], bs)
  | count + 1, bs =>
    match d bs with
    | some (v, bs1) =>
      match decodeListWith d count bs1 with
      | some (vs, bs2) => some (v :: vs, bs2)
      | none => none
    | none => none

/-- Decode exactly `count` key/value pairs with the value decoder `d`. -/
def decodeKVsWith (d : List Nat → Option (FieldValue × List Nat)) :
    Nat → List Nat → Option (List (String × FieldValue) × List Nat)
  | 0, bs => some ([], bs)
  | count + 1, bs =>
    match decodeStr bs with
    | some (k, bs1) =>
      match d bs1 with
      | some (v, bs2) =>
        match decodeKVsWith d count bs2 with
        | some (kvs, bs3) => some ((k, v) :: kvs, bs3)
        | none => none
      | none => none
    | none => none

/-- Decode one value off the front of the input. `fuel` bounds the nesting
depth the decoder will follow; every malformed head (unknown tag, bad
payload, truncation) fails. -/
def decodeVal : Nat → List Nat → Option (FieldValue × List Nat)
  | 0, _ => none
  | _ + 1, [] => none
  | fuel + 1, t :: bs =>
    if t = 0 then some (.null, bs)
    else if t = 1 then
      match bs with
      | [] => none
      | b :: bs1 =>
        if b = 0 then some (.boolean false, bs1)
        else if b = 1 then some (.boolean true, bs1)
        else none
    else if t = 2 then
      match decodeInt bs with
      | some (i, rest) => some (.integer i, rest)
      | none => none
    else if t = 3 then
      match decodeNat bs with
      | some (n, rest) => if h : n < 2 ^ 64 then some (.float ⟨n, h⟩, rest) else none
      | none => none
    else if t = 4 then
      match decodeStr bs with
      | some (s, rest) => some (.str s, rest)
      | none => none
    else if t = 5 then
      match decodeNat bs with
      | some (n, bs1) =>
        match decodeByteSeq n bs1 with
        | some (ds, rest) => some (.bytes ds, rest)
        | none => none
      | none => none
    else if t = 6 then
      match decodeNat bs with
      | some (n, bs1) =>
        match decodeListWith (decodeVal fuel) n bs1 with
        | some (vs, rest) => some (.seq vs, rest)
        | none => none
      | none => none
    else if t = 7 then
      match decodeNat bs with
      | some (n, bs1) =>
        match decodeKVsWith (decodeVal fuel) n bs1 with
        | some (kvs, rest) => some (.mapping kvs, rest)
        | none => none
      | none => none
    else none

/-- `encode(FieldValue) -> byte-sequence` (spec §4.2). -/
def encode (v : FieldValue) : List Nat :=
  encodeVal v

/-- `decode(byte-sequence) -> FieldValue` (spec §4.2): consumes exactly the
bytes passed; `none` models `CodecError`. The fuel `bs.length + 1` dominates
any nesting depth a well-formed input of this length can carry. -/
def decode (bs : List Nat) : Option FieldValue :=
  match decodeVal (bs.length + 1) bs with
  | some (v, []) => some v
  | _ => none

/-! ## Lemmas: number wire form -/

theorem ofDigits_natDigits (n : Nat) : ofDigits (natDigits n) = n := by
  induction n using Nat.strong_induction_on with
  | _ n ih =>
    rw [natDigits]
    split
    · rename_i h
      simp [h, ofDigits]
    · rename_i h
      rw [ofDigits, ih (n / 255) (Nat.div_lt_self (Nat.pos_of_ne_zero h) (by norm_num))]
      omega

theorem natDigits_lt (n : Nat) : ∀ d ∈ natDigits n, d < 255 := by
  induction n using Nat.strong_induction_on with
  | _ n ih =>
    intro d hd
    rw [natDigits] at hd
    split at hd
    · simp at hd
    · rename_i h
      rcases List.mem_cons.mp hd with h1 | h1
      · exact h1 ▸ Nat.mod_lt n (by norm_num)
      · exact ih (n / 255) (Nat.div_lt_self (Nat.pos_of_ne_zero h) (by norm_num)) d h1

theorem natDigits_eq_nil (n : Nat) : natDigits n = [] ↔ n = 0 := by
  rw [natDigits]
  split <;> simp_all

theorem natDigits_getLast (n : Nat) : (natDigits n).getLast? ≠ some 0 := by
  induction n using Nat.strong_induction_on with
  | _ n ih =>
    rw [natDigits]
    split
    · simp
    · rename_i h
      cases hm : natDigits (n / 255) with
      | nil =>
        have h0 : n / 255 = 0 := (natDigits_eq_nil _).mp hm
        have hlt : n < 255 := by
          rcases Nat.lt_or_ge n 255 with h1 | h1
          · exact h1
          · exact absurd h0 (by omega)
        simp only [List.getLast?_singleton]
        intro hcon
        have : n % 255 = 0 := by simpa using hcon
        omega
      | cons b l =>
        rw [List.getLast?_cons_cons, ← hm]
        exact ih (n / 255) (Nat.div_lt_self (Nat.pos_of_ne_zero h) (by norm_num))

theorem decodeNatAux_append (ds : List Nat) (hds : ∀ d ∈ ds, d < 255) (rest : List Nat) :
    decodeNatAux (ds ++ 255 :: rest) = some (ds, rest) := by
  induction ds with
  | nil => simp [decodeNatAux]
  | cons d ds ih =>
    have hd : d < 255 := hds d (by simp)
    have ih2 := ih fun x hx => hds x (by simp [hx])
    simp only [List.cons_append, decodeNatAux, if_neg (Nat.ne_of_lt hd), if_pos hd,
      List.append_eq, ih2]

theorem decodeNat_encodeNat (n : Nat) (rest : List Nat) :
    decodeNat (encodeNat n ++ rest) = some (n, rest) := by
  rw [encodeNat, decodeNat, List.append_assoc, List.singleton_append,
    decodeNatAux_append (natDigits n) (natDigits_lt n)]
  simp [natDigits_getLast n, ofDigits_natDigits]

theorem decodeNatAux_eq (bs : List Nat) :
    ∀ ds rest, decodeNatAux bs = some (ds, rest) →
      bs = ds ++ 255 :: rest ∧ ∀ d ∈ ds, d < 255 := by
  induction bs with
  | nil => intro ds rest h; simp [decodeNatAux] at h
  | cons b bs ih =>
    intro ds rest h
    rw [decodeNatAux] at h
    by_cases hb : b = 255
    · rw [if_pos hb] at h
      obtain ⟨h1, h2⟩ := Prod.mk.injEq .. ▸ Option.some.injEq .. ▸ h
      subst hb
      simp_all
    · rw [if_neg hb] at h
      by_cases hb2 : b < 255
      · rw [if_pos hb2] at h
        cases haux : decodeNatAux bs with
        | none => rw [haux] at h; exact absurd h (by simp)
        | some p =>
          obtain ⟨ds', rest'⟩ := p
          rw [haux] at h
          have h1 : b :: ds' = ds ∧ rest' = rest := by
            constructor <;> [exact congrArg Prod.fst (Option.some.inj h);
              exact congrArg Prod.snd (Option.some.inj h)]
          obtain ⟨hds, hrest⟩ := h1
          obtain ⟨ih1, ih2⟩ := ih ds' rest' haux
          subst hds hrest
          refine ⟨by simp [ih1], ?_⟩
          intro d hd
          rcases List.mem_cons.mp hd with h1 | h1
          · exact h1 ▸ hb2
          · exact ih2 d h1
      · rw [if_neg hb2] at h
        exact absurd h (by simp)

theorem ofDigits_ne_zero (ds : List Nat) (hne : ds ≠ [])
    (hlast : ds.getLast? ≠ some 0) : ofDigits ds ≠ 0 := by
  induction ds with
  | nil => exact absurd rfl hne
  | cons d ds ih =>
    cases ds with
    | nil =>
      have : d ≠ 0 := by simpa using hlast
      simp [ofDigits]
      omega
    | cons e ds' =>
      have h1 : ofDigits (e :: ds') ≠ 0 := by
        refine ih (by simp) ?_
        rw [List.getLast?_cons_cons] at hlast
        exact hlast
      rw [ofDigits]
      have : 1 ≤ ofDigits (e :: ds') := Nat.pos_of_ne_zero h1
      omega

theorem natDigits_ofDigits (ds : List Nat) (hlt : ∀ d ∈ ds, d < 255)
    (hlast : ds.getLast? ≠ some 0) : natDigits (ofDigits ds) = ds := by
  induction ds with
  | nil => simp [ofDigits, natDigits]
  | cons d ds ih =>
    have hd : d < 255 := hlt d (by simp)
    rw [ofDigits]
    cases hds : ds with
    | nil =>
      have hdne : d ≠ 0 := by
        subst hds
        simpa using hlast
      subst hds
      rw [ofDigits]
      rw [natDigits]
      rw [dif_neg (by omega)]
      rw [Nat.mul_zero, Nat.add_zero, Nat.mod_eq_of_lt hd, Nat.div_eq_of_lt hd, natDigits]
      simp
    | cons e ds' =>
      have hm : ofDigits ds ≠ 0 := by
        subst hds
        refine ofDigits_ne_zero _ (by simp) ?_
        rw [List.getLast?_cons_cons] at hlast
        exact hlast
      rw [← hds]
      have hih : natDigits (ofDigits ds) = ds := by
        refine ih (fun x hx => hlt x (by simp [hx])) ?_
        subst hds
        rw [List.getLast?_cons_cons] at hlast
        exact hlast
      have hpos : 1 ≤ ofDigits ds := Nat.pos_of_ne_zero hm
      rw [natDigits, dif_neg (by omega)]
      have h1 : (d + 255 * ofDigits ds) % 255 = d := by omega
      have h2 : (d + 255 * ofDigits ds) / 255 = ofDigits ds := by omega
      rw [h1, h2, hih]

theorem decodeNat_eq (bs : List Nat) (n : Nat) (rest : List Nat)
    (h : decodeNat bs = some (n, rest)) : bs = encodeNat n ++ rest := by
  rw [decodeNat] at h
  split at h
  · rename_i ds rest' haux
    split at h
    · exact absurd h (by simp)
    · rename_i hz
      have hn : ofDigits ds = n ∧ rest' = rest := by
        constructor <;> [exact congrArg Prod.fst (Option.some.inj h);
          exact congrArg Prod.snd (Option.some.inj h)]
      obtain ⟨hn1, hn2⟩ := hn
      obtain ⟨hbs, hlt⟩ := decodeNatAux_eq bs ds rest' haux
      rw [hbs, hn2, encodeNat, ← hn1, natDigits_ofDigits ds hlt hz, List.append_assoc,
        List.singleton_append]
  · exact absurd h (by simp)

/-! ## Lemmas: character, string, integer and byte-sequence wire forms -/

theorem decodeChar_encodeChar (c : Char) (rest : List Nat) :
    decodeChar (encodeChar c ++ rest) = some (c, rest) := by
  have hv : c.toNat.isValidChar := c.valid
  have h2 : Char.ofNatAux c.toNat hv = c := by
    have h3 := Char.ofNat_toNat c
    rwa [Char.ofNat, dif_pos hv] at h3
  rw [encodeChar, decodeChar, decodeNat_encodeNat]
  simp [hv, h2]

theorem toNat_ofNatAux (n : Nat) (h : n.isValidChar) : (Char.ofNatAux n h).toNat = n := by
  simp [Char.ofNatAux, Char.toNat, UInt32.toNat, BitVec.toNat_ofNatLt]

theorem decodeChar_eq (bs : List Nat) (c : Char) (rest : List Nat)
    (h : decodeChar bs = some (c, rest)) : bs = encodeChar c ++ rest := by
  rw [decodeChar] at h
  split at h
  · rename_i n rest' hn
    split at h
    · rename_i hv
      have h1 : Char.ofNatAux n hv = c ∧ rest' = rest := ⟨congrArg Prod.fst (Option.some.inj h),
        congrArg Prod.snd (Option.some.inj h)⟩
      obtain ⟨h1, h2⟩ := h1
      have htn : c.toNat = n := by rw [← h1, toNat_ofNatAux]
      rw [encodeChar, htn, ← h2]
      exact decodeNat_eq bs n rest' hn
    · exact absurd h (by simp)
  · exact absurd h (by simp)

theorem decodeChars_encodeChars (cs : List Char) (rest : List Nat) :
    decodeChars cs.length (encodeChars cs ++ rest) = some (cs, rest) := by
  induction cs with
  | nil => simp [encodeChars, decodeChars]
  | cons c cs ih =>
    simp only [List.length_cons, encodeChars, List.append_assoc, decodeChars,
      decodeChar_encodeChar, ih]

theorem decodeChars_eq (count : Nat) : ∀ bs cs rest, decodeChars count bs = some (cs, rest) →
    bs = encodeChars cs ++ rest ∧ cs.length = count := by
  induction count with
  | zero =>
    intro bs cs rest h
    rw [decodeChars] at h
    have h1 : ([] : List Char) = cs ∧ bs = rest := ⟨congrArg Prod.fst (Option.some.inj h),
      congrArg Prod.snd (Option.some.inj h)⟩
    obtain ⟨h1, h2⟩ := h1
    subst h1 h2
    simp [encodeChars]
  | succ count ih =>
    intro bs cs rest h
    rw [decodeChars] at h
    split at h
    · rename_i c bs1 hc
      split at h
      · rename_i cs' bs2 hcs
        have h1 : c :: cs' = cs ∧ bs2 = rest := ⟨congrArg Prod.fst (Option.some.inj h),
          congrArg Prod.snd (Option.some.inj h)⟩
        obtain ⟨h1, h2⟩ := h1
        obtain ⟨ihbs, ihlen⟩ := ih bs1 cs' bs2 hcs
        subst h1 h2
        refine ⟨?_, by simp [ihlen]⟩
        rw [decodeChar_eq bs c bs1 hc, ihbs, encodeChars, List.append_assoc]
      · exact absurd h (by simp)
    · exact absurd h (by simp)

theorem decodeStr_encodeStr (s : String) (rest : List Nat) :
    decodeStr (encodeStr s ++ rest) = some (s, rest) := by
  obtain ⟨cs⟩ := s
  rw [encodeStr, decodeStr, List.append_assoc, decodeNat_encodeNat]
  simp [decodeChars_encodeChars]

theorem decodeStr_eq (bs : List Nat) (s : String) (rest : List Nat)
    (h : decodeStr bs = some (s, rest)) : bs = encodeStr s ++ rest := by
  rw [decodeStr] at h
  split at h
  · rename_i n bs1 hn
    split at h
    · rename_i cs bs2 hcs
      have h1 : String.mk cs = s ∧ bs2 = rest := ⟨congrArg Prod.fst (Option.some.inj h),
        congrArg Prod.snd (Option.some.inj h)⟩
      obtain ⟨h1, h2⟩ := h1
      obtain ⟨ihbs, ihlen⟩ := decodeChars_eq n bs1 cs bs2 hcs
      subst h2
      rw [decodeNat_eq bs n bs1 hn, ihbs, ← h1, encodeStr]
      simp [← ihlen, List.append_assoc]
    · exact absurd h (by simp)
  · exact absurd h (by simp)

theorem decodeInt_encodeInt (i : Int) (rest : List Nat) :
    decodeInt (encodeInt i ++ rest) = some (i, rest) := by
  by_cases hi : 0 ≤ i
  · rw [encodeInt, if_pos hi, List.cons_append]
    simp only [decodeInt, if_pos rfl, decodeNat_encodeNat]
    simp [Int.toNat_of_nonneg hi]
  · rw [encodeInt, if_neg hi, List.cons_append]
    have h1 : (-i).toNat ≠ 0 := by omega
    simp [decodeInt, decodeNat_encodeNat, h1]
    omega

theorem decodeInt_eq (bs : List Nat) (i : Int) (rest : List Nat)
    (h : decodeInt bs = some (i, rest)) : bs = encodeInt i ++ rest := by
  match bs with
  | [] => rw [decodeInt] at h; exact absurd h (by simp)
  | s :: bs1 =>
    simp only [decodeInt] at h
    by_cases hs : s = 0
    · rw [if_pos hs] at h
      split at h
      · rename_i n rest' hn
        have h1 : (n : Int) = i ∧ rest' = rest := ⟨congrArg Prod.fst (Option.some.inj h),
          congrArg Prod.snd (Option.some.inj h)⟩
        obtain ⟨h1, h2⟩ := h1
        subst h2
        rw [decodeNat_eq bs1 n rest' hn, encodeInt, if_pos (by omega), ← h1, hs]
        simp
      · exact absurd h (by simp)
    · rw [if_neg hs] at h
      by_cases hs1 : s = 1
      · rw [if_pos hs1] at h
        split at h
        · rename_i n rest' hn
          split at h
          · exact absurd h (by simp)
          · rename_i hnz
            have h1 : -(n : Int) = i ∧ rest' = rest := ⟨congrArg Prod.fst (Option.some.inj h),
              congrArg Prod.snd (Option.some.inj h)⟩
            obtain ⟨h1, h2⟩ := h1
            subst h2
            rw [decodeNat_eq bs1 n rest' hn, encodeInt, if_neg (by omega)]
            have h3 : (-i).toNat = n := by omega
            rw [h3, hs1]
            simp
        · exact absurd h (by simp)
      · rw [if_neg hs1] at h
        exact absurd h (by simp)

theorem decodeByteSeq_encodeByteSeq (ds : List (Fin 256)) (rest : List Nat) :
    decodeByteSeq ds.length (encodeByteSeq ds ++ rest) = some (ds, rest) := by
  induction ds with
  | nil => simp [encodeByteSeq, decodeByteSeq]
  | cons d ds ih =>
    rw [encodeByteSeq] at ih ⊢
    simp only [List.length_cons, List.map_cons, List.cons_append, decodeByteSeq, d.isLt,
      dif_pos, List.append_eq, ih]

theorem decodeByteSeq_eq (count : Nat) : ∀ bs ds rest, decodeByteSeq count bs = some (ds, rest) →
    bs = encodeByteSeq ds ++ rest ∧ ds.length = count := by
  induction count with
  | zero =>
    intro bs ds rest h
    rw [decodeByteSeq] at h
    have h1 : ([] : List (Fin 256)) = ds ∧ bs = rest := ⟨congrArg Prod.fst (Option.some.inj h),
      congrArg Prod.snd (Option.some.inj h)⟩
    obtain ⟨h1, h2⟩ := h1
    subst h1 h2
    simp [encodeByteSeq]
  | succ count ih =>
    intro bs ds rest h
    match bs with
    | [] => rw [decodeByteSeq] at h; exact absurd h (by simp)
    | b :: bs1 =>
      rw [decodeByteSeq] at h
      split at h
      · rename_i hb
        split at h
        · rename_i ds' rest' hds
          have h1 : (⟨b, hb⟩ : Fin 256) :: ds' = ds ∧ rest' = rest :=
            ⟨congrArg Prod.fst (Option.some.inj h), congrArg Prod.snd (Option.some.inj h)⟩
          obtain ⟨h1, h2⟩ := h1
          obtain ⟨ihbs, ihlen⟩ := ih bs1 ds' rest' hds
          subst h1 h2
          refine ⟨?_, by simp [ihlen]⟩
          rw [ihbs, encodeByteSeq, encodeByteSeq]
          simp
        · exact absurd h (by simp)
      · exact absurd h (by simp)

/-! ## Lemmas: value round-trip -/

theorem one_le_depthVal (v : FieldValue) : 1 ≤ depthVal v := by
  cases v <;> simp [depthVal]

theorem depthVal_le_depthVals (x : FieldValue) (xs : List FieldValue) (hx : x ∈ xs) :
    depthVal x ≤ depthVals xs := by
  induction xs with
  | nil => simp at hx
  | cons y ys ih =>
    rw [depthVals]
    rcases List.mem_cons.mp hx with h | h
    · exact h ▸ Nat.le_max_left _ _
    · exact le_trans (ih h) (Nat.le_max_right _ _)

theorem depthVal_le_depthKVs (k : String) (v : FieldValue) (kvs : List (String × FieldValue))
    (hx : (k, v) ∈ kvs) : depthVal v ≤ depthKVs kvs := by
  induction kvs with
  | nil => simp at hx
  | cons p ps ih =>
    obtain ⟨a, b⟩ := p
    rw [depthKVs]
    rcases List.mem_cons.mp hx with h | h
    · cases h
      exact Nat.le_max_left _ _
    · exact le_trans (ih h) (Nat.le_max_right _ _)

theorem decodeListWith_encodeVals (d : List Nat → Option (FieldValue × List Nat))
    (xs : List FieldValue) (hd : ∀ x ∈ xs, ∀ r, d (encodeVal x ++ r) = some (x, r))
    (rest : List Nat) :
    decodeListWith d xs.length (encodeVals xs ++ rest) = some (xs, rest) := by
  induction xs with
  | nil => simp [encodeVals, decodeListWith]
  | cons x xs ih =>
    simp only [encodeVals, List.append_assoc, List.length_cons, decodeListWith,
      hd x (List.mem_cons_self x xs), ih (fun y hy r => hd y (List.mem_cons_of_mem x hy) r)]

theorem decodeKVsWith_encodeKVs (d : List Nat → Option (FieldValue × List Nat))
    (kvs : List (String × FieldValue))
    (hd : ∀ p ∈ kvs, ∀ r, d (encodeVal p.2 ++ r) = some (p.2, r)) (rest : List Nat) :
    decodeKVsWith d kvs.length (encodeKVs kvs ++ rest) = some (kvs, rest) := by
  induction kvs with
  | nil => simp [encodeKVs, decodeKVsWith]
  | cons p ps ih =>
    obtain ⟨k, v⟩ := p
    simp only [encodeKVs, List.append_assoc, List.length_cons, decodeKVsWith,
      decodeStr_encodeStr, hd (k, v) (List.mem_cons_self _ _),
      ih (fun q hq r => hd q (List.mem_cons_of_mem _ hq) r)]

theorem decodeVal_encodeVal (fuel : Nat) : ∀ (v : FieldValue) (rest : List Nat),
    depthVal v ≤ fuel → decodeVal fuel (encodeVal v ++ rest) = some (v, rest) := by
  induction fuel with
  | zero =>
    intro v rest h
    exact absurd h (by have := one_le_depthVal v; omega)
  | succ fuel ih =>
    intro v rest h
    cases v with
    | null => simp [encodeVal, decodeVal]
    | boolean b => cases b <;> simp [encodeVal, decodeVal]
    | integer i => simp [encodeVal, decodeVal, decodeInt_encodeInt]
    | float bits => simp [encodeVal, decodeVal, decodeNat_encodeNat, bits.isLt]
    | str s => simp [encodeVal, decodeVal, decodeStr_encodeStr]
    | bytes ds =>
      simp [encodeVal, decodeVal, List.append_assoc, decodeNat_encodeNat,
        decodeByteSeq_encodeByteSeq]
    | seq xs =>
      have hdep : ∀ x ∈ xs, depthVal x ≤ fuel := by
        intro x hx
        have h1 := depthVal_le_depthVals x xs hx
        rw [depthVal] at h
        omega
      have hlist := decodeListWith_encodeVals (decodeVal fuel) xs
        (fun x hx r => ih x r (hdep x hx)) rest
      simp [encodeVal, decodeVal, List.append_assoc, decodeNat_encodeNat, hlist]
    | mapping kvs =>
      have hdep : ∀ p ∈ kvs, depthVal (Prod.snd p) ≤ fuel := by
        intro p hp
        obtain ⟨k, v'⟩ := p
        have h1 := depthVal_le_depthKVs k v' kvs hp
        rw [depthVal] at h
        show depthVal v' ≤ fuel
        omega
      have hlist := decodeKVsWith_encodeKVs (decodeVal fuel) kvs
        (fun p hp r => ih p.2 r (hdep p hp)) rest
      simp [encodeVal, decodeVal, List.append_assoc, decodeNat_encodeNat, hlist]

theorem depthVals_le_length (xs : List FieldValue)
    (h : ∀ x ∈ xs, depthVal x ≤ (encodeVal x).length) :
    depthVals xs ≤ (encodeVals xs).length := by
  induction xs with
  | nil => simp [depthVals, encodeVals]
  | cons x xs ih =>
    rw [depthVals, encodeVals, List.length_append]
    have h1 := h x (List.mem_cons_self x xs)
    have h2 := ih fun y hy => h y (List.mem_cons_of_mem x hy)
    omega

theorem depthKVs_le_length (kvs : List (String × FieldValue))
    (h : ∀ p ∈ kvs, depthVal (Prod.snd p) ≤ (encodeVal (Prod.snd p)).length) :
    depthKVs kvs ≤ (encodeKVs kvs).length := by
  induction kvs with
  | nil => simp [depthKVs, encodeKVs]
  | cons p ps ih =>
    obtain ⟨k, v⟩ := p
    rw [depthKVs, encodeKVs]
    simp only [List.length_append]
    have h1 := h (k, v) (List.mem_cons_self _ _)
    have h2 := ih fun q hq => h q (List.mem_cons_of_mem _ hq)
    simp only at h1
    omega

theorem depthVal_le_length (n : Nat) : ∀ v : FieldValue, sizeOf v ≤ n →
    depthVal v ≤ (encodeVal v).length := by
  induction n using Nat.strong_induction_on with
  | _ n ih =>
    intro v hv
    cases v with
    | null => simp [depthVal, encodeVal]
    | boolean b => simp [depthVal, encodeVal]
    | integer i => simp [depthVal, encodeVal]
    | float bits => simp [depthVal, encodeVal]
    | str s => simp [depthVal, encodeVal]
    | bytes ds => simp [depthVal, encodeVal]
    | seq xs =>
      have hx : ∀ x ∈ xs, depthVal x ≤ (encodeVal x).length := by
        intro x hxm
        have h1 := List.sizeOf_lt_of_mem hxm
        have h2 : sizeOf (FieldValue.seq xs) = 1 + sizeOf xs := by simp
        have h3 : sizeOf x < n := by omega
        exact ih (sizeOf x) h3 x (le_refl _)
      have h4 := depthVals_le_length xs hx
      have h5 : 1 ≤ (encodeNat xs.length).length := by simp [encodeNat]
      rw [depthVal, encodeVal]
      simp only [List.length_cons, List.length_append]
      omega
    | mapping kvs =>
      have hx : ∀ p ∈ kvs, depthVal (Prod.snd p) ≤ (encodeVal (Prod.snd p)).length := by
        intro p hpm
        obtain ⟨k, v'⟩ := p
        have h1 := List.sizeOf_lt_of_mem hpm
        have h2 : sizeOf (FieldValue.mapping kvs) = 1 + sizeOf kvs := by simp
        have h2b : sizeOf v' < sizeOf ((k, v') : String × FieldValue) := by simp
        have h3 : sizeOf v' < n := by omega
        exact ih (sizeOf v') h3 v' (le_refl _)
      have h4 := depthKVs_le_length kvs hx
      have h5 : 1 ≤ (encodeNat kvs.length).length := by simp [encodeNat]
      rw [depthVal, encodeVal]
      simp only [List.length_cons, List.length_append]
      omega

theorem decode_encode (v : FieldValue) : decode (encode v) = some v := by
  rw [encode, decode]
  have h1 : depthVal v ≤ (encodeVal v).length + 1 :=
    le_trans (depthVal_le_length (sizeOf v) v (le_refl _)) (Nat.le_succ _)
  have h2 := decodeVal_encodeVal ((encodeVal v).length + 1) v [] h1
  rw [List.append_nil] at h2
  rw [h2]

/-! ## Lemmas: value canonicality (decode accepts only encodings) -/

theorem decodeListWith_eq (d : List Nat → Option (FieldValue × List Nat))
    (hd : ∀ bs v rest, d bs = some (v, rest) → bs = encodeVal v ++ rest) :
    ∀ count bs vs rest, decodeListWith d count bs = some (vs, rest) →
      bs = encodeVals vs ++ rest ∧ vs.length = count := by
  intro count
  induction count with
  | zero =>
    intro bs vs rest h
    rw [decodeListWith] at h
    have h1 : ([] : List FieldValue) = vs ∧ bs = rest := ⟨congrArg Prod.fst (Option.some.inj h),
      congrArg Prod.snd (Option.some.inj h)⟩
    obtain ⟨h1, h2⟩ := h1
    subst h1 h2
    simp [encodeVals]
  | succ count ih =>
    intro bs vs rest h
    rw [decodeListWith] at h
    split at h
    · rename_i v bs1 hv
      split at h
      · rename_i vs' bs2 hvs
        have h1 : v :: vs' = vs ∧ bs2 = rest := ⟨congrArg Prod.fst (Option.some.inj h),
          congrArg Prod.snd (Option.some.inj h)⟩
        obtain ⟨h1, h2⟩ := h1
        obtain ⟨ihbs, ihlen⟩ := ih bs1 vs' bs2 hvs
        subst h1 h2
        refine ⟨?_, by simp [ihlen]⟩
        rw [hd bs v bs1 hv, ihbs, encodeVals, List.append_assoc]
      · exact absurd h (by simp)
    · exact absurd h (by simp)

theorem decodeKVsWith_eq (d : List Nat → Option (FieldValue × List Nat))
    (hd : ∀ bs v rest, d bs = some (v, rest) → bs = encodeVal v ++ rest) :
    ∀ count bs kvs rest, decodeKVsWith d count bs = some (kvs, rest) →
      bs = encodeKVs kvs ++ rest ∧ kvs.length = count := by
  intro count
  induction count with
  | zero =>
    intro bs kvs rest h
    rw [decodeKVsWith] at h
    have h1 : ([] : List (String × FieldValue)) = kvs ∧ bs = rest :=
      ⟨congrArg Prod.fst (Option.some.inj h), congrArg Prod.snd (Option.some.inj h)⟩
    obtain ⟨h1, h2⟩ := h1
    subst h1 h2
    simp [encodeKVs]
  | succ count ih =>
    intro bs kvs rest h
    rw [decodeKVsWith] at h
    split at h
    · rename_i k bs1 hk
      split at h
      · rename_i v bs2 hv
        split at h
        · rename_i kvs' bs3 hkvs
          have h1 : (k, v) :: kvs' = kvs ∧ bs3 = rest := ⟨congrArg Prod.fst (Option.some.inj h),
            congrArg Prod.snd (Option.some.inj h)⟩
          obtain ⟨h1, h2⟩ := h1
          obtain ⟨ihbs, ihlen⟩ := ih bs2 kvs' bs3 hkvs
          subst h1 h2
          refine ⟨?_, by simp [ihlen]⟩
          rw [decodeStr_eq bs k bs1 hk, hd bs1 v bs2 hv, ihbs, encodeKVs]
          simp [List.append_assoc]
        · exact absurd h (by simp)
      · exact absurd h (by simp)
    · exact absurd h (by simp)

theorem decodeVal_eq (fuel : Nat) : ∀ bs v rest, decodeVal fuel bs = some (v, rest) →
    bs = encodeVal v ++ rest := by
  induction fuel with
  | zero =>
    intro bs v rest h
    rw [decodeVal] at h
    exact absurd h (by simp)
  | succ fuel ih =>
    intro bs v rest h
    match bs with
    | [] => rw [decodeVal] at h; exact absurd h (by simp)
    | t :: bs1 =>
      simp only [decodeVal] at h
      by_cases h0 : t = 0
      · rw [if_pos h0] at h
        have h1 : FieldValue.null = v ∧ bs1 = rest := ⟨congrArg Prod.fst (Option.some.inj h),
          congrArg Prod.snd (Option.some.inj h)⟩
        obtain ⟨h1, h2⟩ := h1
        subst h1 h2 h0
        simp [encodeVal]
      · rw [if_neg h0] at h
        by_cases h1 : t = 1
        · rw [if_pos h1] at h
          match bs1 with
          | [] => exact absurd h (by simp)
          | b :: bs2 =>
            dsimp only at h
            by_cases hb : b = 0
            · rw [if_pos hb] at h
              have h2 : FieldValue.boolean false = v ∧ bs2 = rest :=
                ⟨congrArg Prod.fst (Option.some.inj h), congrArg Prod.snd (Option.some.inj h)⟩
              obtain ⟨h2, h3⟩ := h2
              subst h2 h3 h1 hb
              simp [encodeVal]
            · rw [if_neg hb] at h
              by_cases hb1 : b = 1
              · rw [if_pos hb1] at h
                have h2 : FieldValue.boolean true = v ∧ bs2 = rest :=
                  ⟨congrArg Prod.fst (Option.some.inj h), congrArg Prod.snd (Option.some.inj h)⟩
                obtain ⟨h2, h3⟩ := h2
                subst h2 h3 h1 hb1
                simp [encodeVal]
              · rw [if_neg hb1] at h
                exact absurd h (by simp)
        · rw [if_neg h1] at h
          by_cases h2 : t = 2
          · rw [if_pos h2] at h
            split at h
            · rename_i i rest' hi
              have h3 : FieldValue.integer i = v ∧ rest' = rest :=
                ⟨congrArg Prod.fst (Option.some.inj h), congrArg Prod.snd (Option.some.inj h)⟩
              obtain ⟨h3, h4⟩ := h3
              subst h3 h4 h2
              rw [encodeVal, decodeInt_eq bs1 i _ hi]
              simp
            · exact absurd h (by simp)
          · rw [if_neg h2] at h
            by_cases h3 : t = 3
            · rw [if_pos h3] at h
              split at h
              · rename_i n rest' hn
                split at h
                · rename_i hlt
                  have h4 : FieldValue.float ⟨n, hlt⟩ = v ∧ rest' = rest :=
                    ⟨congrArg Prod.fst (Option.some.inj h), congrArg Prod.snd (Option.some.inj h)⟩
                  obtain ⟨h4, h5⟩ := h4
                  subst h4 h5 h3
                  rw [encodeVal, decodeNat_eq bs1 n _ hn]
                  simp
                · exact absurd h (by simp)
              · exact absurd h (by simp)
            · rw [if_neg h3] at h
              by_cases h4 : t = 4
              · rw [if_pos h4] at h
                split at h
                · rename_i s rest' hs
                  have h5 : FieldValue.str s = v ∧ rest' = rest :=
                    ⟨congrArg Prod.fst (Option.some.inj h), congrArg Prod.snd (Option.some.inj h)⟩
                  obtain ⟨h5, h6⟩ := h5
                  subst h5 h6 h4
                  rw [encodeVal, decodeStr_eq bs1 s _ hs]
                  simp
                · exact absurd h (by simp)
              · rw [if_neg h4] at h
                by_cases h5 : t = 5
                · rw [if_pos h5] at h
                  split at h
                  · rename_i n bs2 hn
                    split at h
                    · rename_i ds rest' hds
                      have h6 : FieldValue.bytes ds = v ∧ rest' = rest :=
                        ⟨congrArg Prod.fst (Option.some.inj h),
                          congrArg Prod.snd (Option.some.inj h)⟩
                      obtain ⟨h6, h7⟩ := h6
                      obtain ⟨hbs2, hlen⟩ := decodeByteSeq_eq n bs2 ds rest' hds
                      subst h6 h7 h5
                      rw [encodeVal, decodeNat_eq bs1 n bs2 hn, hbs2, ← hlen]
                      simp [List.append_assoc]
                    · exact absurd h (by simp)
                  · exact absurd h (by simp)
                · rw [if_neg h5] at h
                  by_cases h6 : t = 6
                  · rw [if_pos h6] at h
                    split at h
                    · rename_i n bs2 hn
                      split at h
                      · rename_i vs rest' hvs
                        have h7 : FieldValue.seq vs = v ∧ rest' = rest :=
                          ⟨congrArg Prod.fst (Option.some.inj h),
                            congrArg Prod.snd (Option.some.inj h)⟩
                        obtain ⟨h7, h8⟩ := h7
                        obtain ⟨hbs2, hlen⟩ := decodeListWith_eq (decodeVal fuel) ih n bs2 vs
                          rest' hvs
                        subst h7 h8 h6
                        rw [encodeVal, decodeNat_eq bs1 n bs2 hn, hbs2, ← hlen]
                        simp [List.append_assoc]
                      · exact absurd h (by simp)
                    · exact absurd h (by simp)
                  · rw [if_neg h6] at h
                    by_cases h7 : t = 7
                    · rw [if_pos h7] at h
                      split at h
                      · rename_i n bs2 hn
                        split at h
                        · rename_i kvs rest' hkvs
                          have h8 : FieldValue.mapping kvs = v ∧ rest' = rest :=
                            ⟨congrArg Prod.fst (Option.some.inj h),
                              congrArg Prod.snd (Option.some.inj h)⟩
                          obtain ⟨h8, h9⟩ := h8
                          obtain ⟨hbs2, hlen⟩ := decodeKVsWith_eq (decodeVal fuel) ih n bs2 kvs
                            rest' hkvs
                          subst h8 h9 h7
                          rw [encodeVal, decodeNat_eq bs1 n bs2 hn, hbs2, ← hlen]
                          simp [List.append_assoc]
                        · exact absurd h (by simp)
                      · exact absurd h (by simp)
                    · rw [if_neg h7] at h
                      exact absurd h (by simp)

theorem decode_eq (bs : List Nat) (v : FieldValue) (h : decode bs = some v) : bs = encode v := by
  rw [decode] at h
  split at h
  · rename_i v' heq
    have h1 := decodeVal_eq (bs.length + 1) bs v' [] heq
    rw [List.append_nil] at h1
    have h2 : v' = v := Option.some.inj h
    rw [h1, h2, encode]
  · exact absurd h (by simp)

/-! ## Lemmas: guest memory access -/

theorem sliceOk_iff (m : Mem) (lo hi : Int) :
    sliceOk m lo hi = true ↔ 0 ≤ lo ∧ lo ≤ hi ∧ hi ≤ (m.size : Int) := by
  simp [sliceOk, and_assoc]

theorem wrap32_small (n : Int) (h1 : -(2 ^ 31) ≤ n) (h2 : n < 2 ^ 31) : wrap32 n = n := by
  rw [wrap32, Int.emod_eq_of_lt (by omega) (by omega)]
  omega

theorem writeBytes_byteAt_outside (m : Mem) (lo : Int) (bs : List Nat) (i : Nat)
    (h : i < lo.toNat ∨ lo.toNat + bs.length ≤ i) :
    (writeBytes m lo bs).byteAt i = m.byteAt i := by
  simp only [writeBytes]
  rw [if_neg (by omega)]

theorem writeBytes_byteAt_inside (m : Mem) (lo : Int) (bs : List Nat) (i : Nat)
    (h1 : lo.toNat ≤ i) (h2 : i < lo.toNat + bs.length) :
    (writeBytes m lo bs).byteAt i = bs.getD (i - lo.toNat) 0 % 256 := by
  simp only [writeBytes]
  rw [if_pos ⟨h1, h2⟩]

theorem readSlice_congr (m1 m2 : Mem) (a b : Int)
    (h : ∀ i, i < (b - a).toNat → m1.byteAt (a.toNat + i) = m2.byteAt (a.toNat + i)) :
    readSlice m1 a b = readSlice m2 a b := by
  simp only [readSlice]
  exact List.map_congr_left fun i hi => h i (List.mem_range.mp hi)

theorem readSlice_writeBytes_self (m : Mem) (lo : Int) (bs : List Nat) (hlo : 0 ≤ lo) :
    readSlice (writeBytes m lo bs) lo (lo + bs.length) = bs.map (· % 256) := by
  simp only [readSlice]
  have hlen : (lo + (bs.length : Int) - lo).toNat = bs.length := by omega
  rw [hlen]
  apply List.ext_getElem
  · simp
  intro i h1 h2
  have hlt : i < bs.length := by simpa using h1
  simp only [List.getElem_map, List.getElem_range]
  rw [writeBytes_byteAt_inside m lo bs (lo.toNat + i) (by omega) (by omega)]
  have hidx : lo.toNat + i - lo.toNat = i := by omega
  rw [hidx, List.getD_eq_getElem bs 0 hlt]

theorem map_mod256_eq_self (l : List Nat) (h : ∀ b ∈ l, b < 256) : l.map (· % 256) = l := by
  conv_rhs => rw [← List.map_id l]
  exact List.map_congr_left fun b hb => Nat.mod_eq_of_lt (h b hb)

theorem putUint32LE_lt (v : Nat) : ∀ b ∈ putUint32LE v, b < 256 := by
  simp only [putUint32LE, List.mem_cons]
  intro b hb
  rcases hb with h | h | h | h | h <;> first | (subst h; omega) | simp_all

theorem putUint64LE_lt (v : Nat) : ∀ b ∈ putUint64LE v, b < 256 := by
  simp only [putUint64LE, List.mem_cons]
  intro b hb
  rcases hb with h | h | h | h | h | h | h | h | h <;> first | (subst h; omega) | simp_all

theorem encodedMessageValue_lt : ∀ b ∈ encodedMessageValue, b < 256 := by decide

theorem encodedMessageValue_length : encodedMessageValue.length = 46 := by decide

theorem fromLE_putUint32LE (v : Nat) (h : v < 2 ^ 32) : fromLEBytes (putUint32LE v) = v := by
  simp only [putUint32LE, fromLEBytes]
  omega

theorem fromLE_putUint64LE (v : Nat) (h : v < 2 ^ 64) : fromLEBytes (putUint64LE v) = v := by
  simp only [putUint64LE, fromLEBytes]
  omega

theorem toU32_lt (n : Int) : toU32 n < 2 ^ 32 := by
  unfold toU32
  omega

theorem toU64_lt (n : Int) : toU64 n < 2 ^ 64 := by
  unfold toU64
  omega

theorem sliceOk_writeBytes (m : Mem) (lo : Int) (bs : List Nat) (a b : Int) :
    sliceOk (writeBytes m lo bs) a b = sliceOk m a b := rfl

theorem readSlice_writeBytes_self4 (m : Mem) (lo : Int) (v : Nat) (h : 0 ≤ lo) :
    readSlice (writeBytes m lo (putUint32LE v)) lo (lo + 4) = putUint32LE v := by
  have h1 := readSlice_writeBytes_self m lo (putUint32LE v) h
  have h2 : ((putUint32LE v).length : Int) = 4 := by norm_num [putUint32LE]
  rw [h2] at h1
  rw [h1, map_mod256_eq_self _ (putUint32LE_lt v)]

theorem readSlice_writeBytes_self8 (m : Mem) (lo : Int) (v : Nat) (h : 0 ≤ lo) :
    readSlice (writeBytes m lo (putUint64LE v)) lo (lo + 8) = putUint64LE v := by
  have h1 := readSlice_writeBytes_self m lo (putUint64LE v) h
  have h2 : ((putUint64LE v).length : Int) = 8 := by norm_num [putUint64LE]
  rw [h2] at h1
  rw [h1, map_mod256_eq_self _ (putUint64LE_lt v)]

theorem readSlice_writeBytes_selfEV (m : Mem) (lo : Int) (h : 0 ≤ lo) :
    readSlice (writeBytes m lo encodedMessageValue) lo
      (lo + (encodedMessageValue.length : Int)) = encodedMessageValue := by
  rw [readSlice_writeBytes_self m lo _ h, map_mod256_eq_self _ encodedMessageValue_lt]

theorem readSlice_writeBytes_disjoint (m : Mem) (lo : Int) (bs : List Nat) (a b : Int)
    (ha : 0 ≤ a) (hlo : 0 ≤ lo)
    (hdisj : b ≤ lo ∨ lo + (bs.length : Int) ≤ a) :
    readSlice (writeBytes m lo bs) a b = readSlice m a b := by
  apply readSlice_congr
  intro i hi
  apply writeBytes_byteAt_outside
  omega

/-! ## Claim theorems -/

/-- C1, counterexample: the capability functions do not validate pointer/length
pairs into an `OutOfBounds` failure. On a 70-byte memory, `getField` with the
pair (66, 8) — `66 + 8` exceeds the memory size — hits a Go slice-bounds panic
(`HostOutcome.panic`), aborting the call instead of failing with any status;
the `Status` enumeration does not even contain an `OutOfBounds` member. -/
theorem getField_oob_cex : getField modMsg [66, 8, 0, 0] = HostOutcome.panic := rfl

/-- C1, amended: no pointer/length validation exists; for every capability
function, a (pointer, length) pair whose 32-bit range is invalid (negative,
wrapping, or exceeding the current memory size) makes the Go slice expression
panic, aborting the call — there is no `OutOfBounds` status and no in-band
report. Each conjunct carries exactly the invalidity premise of its own range:
any invalid (p, l) pair for `getField`/`putField`/`log`, and an invalid 8-byte
range at `p` for `getCurrentTime`. -/
theorem capability_oob_panics (m : WasmModule) (mem : Mem) (hm : m.mem? = some mem)
    (p l x y lvl : Int) (dec : List Nat → Bool) (now : Int) :
    (sliceOk mem p (wrap32 (p + l)) = false →
      getField m [p, l, x, y] = .panic ∧ putField dec m [p, l, x, y] = .panic ∧
      log m [lvl, p, l] = .panic) ∧
    (sliceOk mem p (wrap32 (p + 8)) = false → getCurrentTime m now [p] = .panic) := by
  constructor
  · intro hbad
    refine ⟨?_, ?_, ?_⟩
    · simp [getField, hm, hbad]
    · simp [putField, hm, hbad]
    · simp [log, hm, hbad]
  · intro hbad8
    simp [getCurrentTime, hm, hbad8]

/-- C1 witness: on the concrete 70-byte memory, the ordinary out-of-bounds pair
(0, 100) — valid pointer, over-long length — makes `getField`, `putField` and
`log` panic, and the pointer 66, whose 8-byte range ends past the memory, makes
`getCurrentTime` panic. -/
theorem capability_oob_panics_witness :
    getField modMsg [0, 100, 1, 2] = .panic ∧
    putField (fun _ => true) modMsg [0, 100, 1, 2] = .panic ∧
    log modMsg [99, 0, 100] = .panic ∧ getCurrentTime modMsg 5 [66] = .panic := by
  have h := (capability_oob_panics modMsg memMsg rfl 0 100 1 2 99 (fun _ => true) 5).1
    (by decide)
  exact ⟨h.1, h.2.1, h.2.2,
    (capability_oob_panics modMsg memMsg rfl 66 8 1 2 99 (fun _ => true) 5).2 (by decide)⟩

/-- C3: `getField` on a field name that does not resolve (anything other than
`message`) returns status `OK` with the memory untouched — nothing is written
to the out-parameters — and in particular it does not return `NotFound`. -/
theorem getField_miss_ok (mem : Mem) (mallocF : Int → Option Int)
    (dataPtr dataLen rtnPtr rtnLen : Int)
    (hok : sliceOk mem dataPtr (wrap32 (dataPtr + dataLen)) = true)
    (hmiss : readSlice mem dataPtr (wrap32 (dataPtr + dataLen)) ≠ messageBytes) :
    getField ⟨some mem, mallocF⟩ [dataPtr, dataLen, rtnPtr, rtnLen] =
      .ret (some mem) (some StatusOK) false ∧ StatusOK ≠ StatusNotFound := by
  constructor
  · simp [getField, hok, hmiss, StatusOK]
  · decide

/-- C3 witness: looking up the 6-byte name `messag` misses and returns `OK`
with memory unchanged. -/
theorem getField_miss_ok_witness :
    getField ⟨some memMsg, fun _ => some 8⟩ [0, 6, 8, 12] =
      .ret (some memMsg) (some StatusOK) false ∧ StatusOK ≠ StatusNotFound :=
  getField_miss_ok memMsg (fun _ => some 8) 0 6 8 12 (by decide) (by decide)

/-- C4: when the value buffer fails to decode, `putField` returns status
`InvalidArgument` and leaves the memory (the only host-visible state) exactly
as it was; when the value decodes, it returns `OK`. (The source also returns a
non-nil Go error together with the `InvalidArgument` value, recorded here as
the `true` flag.) -/
theorem putField_decode_status (dec : List Nat → Bool) (mem : Mem)
    (mallocF : Int → Option Int) (keyPtr keyLen valuePtr valueLen : Int)
    (hk : sliceOk mem keyPtr (wrap32 (keyPtr + keyLen)) = true)
    (hv : sliceOk mem valuePtr (wrap32 (valuePtr + valueLen)) = true) :
    (dec (readSlice mem valuePtr (wrap32 (valuePtr + valueLen))) = false →
      putField dec ⟨some mem, mallocF⟩ [keyPtr, keyLen, valuePtr, valueLen] =
        .ret (some mem) (some StatusInvalidArgument) true) ∧
    (dec (readSlice mem valuePtr (wrap32 (valuePtr + valueLen))) = true →
      putField dec ⟨some mem, mallocF⟩ [keyPtr, keyLen, valuePtr, valueLen] =
        .ret (some mem) (some StatusOK) false) := by
  constructor
  · intro hdec
    simp [putField, hk, hv, hdec]
  · intro hdec
    simp [putField, hk, hv, hdec]

/-- C4 witness: a decoder rejecting the 4-byte value buffer yields
`InvalidArgument` with memory unchanged. -/
theorem putField_decode_status_witness :
    putField (fun _ => false) ⟨some memMsg, fun _ => some 8⟩ [0, 3, 3, 4] =
      .ret (some memMsg) (some StatusInvalidArgument) true :=
  (putField_decode_status (fun _ => false) memMsg (fun _ => some 8) 0 3 3 4 (by decide)
    (by decide)).1 (by decide)

/-- C5, counterexample: a bad argument count — a guest-visible failure — is not
reported in-band at all: `getField` called with 3 arguments returns a nil
wasmer value list (no status) together with a non-nil Go error, so the guest
receives neither `InvalidArgument` nor `InternalFailure`. -/
theorem getField_badArgCount_cex :
    getField modMsg [0, 7, 8] = .ret (some memMsg) none true ∧
    inBandStatus (getField modMsg [0, 7, 8]) = none := ⟨rfl, rfl⟩

/-- C5, amended: guest-visible failures are reported unevenly. A wrong argument
count makes every capability function return a non-nil Go error with no status
value (out-of-band); a bounds violation makes the affected capability function
panic, aborting the host run with no status of any kind; only a `putField`
decode failure carries an in-band `InvalidArgument` status, and even that is
accompanied by a non-nil Go error. Each conjunct carries exactly its own
premise. -/
theorem guest_failures_reporting (m : WasmModule) (dec : List Nat → Bool) (args : List Int)
    (now lvl : Int) (mem : Mem) (keyPtr keyLen valuePtr valueLen : Int) :
    (args.length ≠ 4 → getField m args = .ret m.mem? none true) ∧
    (args.length ≠ 4 → putField dec m args = .ret m.mem? none true) ∧
    (args.length ≠ 3 → log m args = .ret m.mem? none true) ∧
    (args.length ≠ 1 → getCurrentTime m now args = .ret m.mem? none true) ∧
    (m.mem? = some mem → sliceOk mem keyPtr (wrap32 (keyPtr + keyLen)) = false →
      getField m [keyPtr, keyLen, valuePtr, valueLen] = .panic ∧
      putField dec m [keyPtr, keyLen, valuePtr, valueLen] = .panic ∧
      log m [lvl, keyPtr, keyLen] = .panic) ∧
    (m.mem? = some mem → sliceOk mem keyPtr (wrap32 (keyPtr + 8)) = false →
      getCurrentTime m now [keyPtr] = .panic) ∧
    (m.mem? = some mem →
      sliceOk mem keyPtr (wrap32 (keyPtr + keyLen)) = true →
      sliceOk mem valuePtr (wrap32 (valuePtr + valueLen)) = true →
      dec (readSlice mem valuePtr (wrap32 (valuePtr + valueLen))) = false →
      putField dec m [keyPtr, keyLen, valuePtr, valueLen] =
        .ret (some mem) (some StatusInvalidArgument) true) := by
  refine ⟨?_, ?_, ?_, ?_, ?_, ?_, ?_⟩
  · intro h
    simp [getField, h]
  · intro h
    simp [putField, h]
  · intro h
    simp [log, h]
  · intro h
    simp [getCurrentTime, h]
  · intro hm hbad
    refine ⟨?_, ?_, ?_⟩
    · simp [getField, hm, hbad]
    · simp [putField, hm, hbad]
    · simp [log, hm, hbad]
  · intro hm hbad8
    simp [getCurrentTime, hm, hbad8]
  · intro hm hk hv hdec
    simp [putField, hm, hk, hv, hdec]

/-- C5 witness: with two arguments the failure is out-of-band (no status, error
set); the out-of-bounds pair (0, 100) panics `getField`; and a decode failure
on a valid call is the in-band `InvalidArgument` case. -/
theorem guest_failures_reporting_witness :
    getField modMsg [1, 2] = .ret (some memMsg) none true ∧
    getField modMsg [0, 100, 1, 2] = .panic ∧
    putField (fun _ => false) modMsg [0, 2, 2, 5] =
      .ret (some memMsg) (some StatusInvalidArgument) true := by
  have h := guest_failures_reporting modMsg (fun _ => false) [1, 2] 0 99 memMsg 0 2 2 5
  refine ⟨h.1 (by decide), ?_, h.2.2.2.2.2.2 rfl (by decide) (by decide) (by decide)⟩
  exact ((guest_failures_reporting modMsg (fun _ => false) [1, 2] 0 99 memMsg 0 100 1
    2).2.2.2.2.1 rfl (by decide)).1

/-- C7, counterexample: with a guest allocator that always fails, `getField` on
the present field `message` does not return `InternalFailure`: it returns a nil
value list (no status) plus a non-nil Go error, which the runtime turns into a
trap that aborts the run. -/
theorem getField_mallocFail_cex :
    getField modNoAlloc [0, 7, 50, 60] = .ret (some memMsg) none true ∧
    inBandStatus (getField modNoAlloc [0, 7, 50, 60]) ≠ some StatusInternalFailure :=
  ⟨rfl, by decide⟩

/-- C7, amended: when the guest allocator fails on a hit, `getField` reports
the failure out-of-band — a non-nil Go error with no status value and memory
unchanged — rather than the in-band `InternalFailure` the spec describes. -/
theorem getField_mallocFail_err (mem : Mem) (mallocF : Int → Option Int)
    (dataPtr dataLen rtnPtr rtnLen : Int)
    (hok : sliceOk mem dataPtr (wrap32 (dataPtr + dataLen)) = true)
    (hname : readSlice mem dataPtr (wrap32 (dataPtr + dataLen)) = messageBytes)
    (hmf : mallocF (encodedMessageValue.length : Int) = none) :
    getField ⟨some mem, mallocF⟩ [dataPtr, dataLen, rtnPtr, rtnLen] =
      .ret (some mem) none true := by
  have hlen : (encodedMessageValue.length : Int) = 46 := by decide
  have hwrap : wrap32 (encodedMessageValue.length : Int) = (encodedMessageValue.length : Int) := by
    rw [hlen, wrap32_small] <;> decide
  simp [getField, hok, hname, WasmModule.malloc, hwrap, hmf]

/-- C7 witness: the always-failing allocator module yields the out-of-band
error on a hit. -/
theorem getField_mallocFail_err_witness :
    getField ⟨some memMsg, fun _ => none⟩ [0, 7, 40, 44] = .ret (some memMsg) none true :=
  getField_mallocFail_err memMsg (fun _ => none) 0 7 40 44 (by decide) (by decide) rfl

/-- C10: `log` returns `OK` for every 32-bit level value whenever the message
read succeeds — the level is only formatted into the log line, so values
outside the `LogLevel` enumeration (0–4) are accepted and change neither the
status nor control flow. -/
theorem log_any_level_ok (mem : Mem) (mallocF : Int → Option Int)
    (level dataPtr dataLen : Int)
    (hlevel : -(2 ^ 31) ≤ level ∧ level < 2 ^ 31)
    (hok : sliceOk mem dataPtr (wrap32 (dataPtr + dataLen)) = true) :
    log ⟨some mem, mallocF⟩ [level, dataPtr, dataLen] =
      .ret (some mem) (some StatusOK) false := by
  simp [log, hok, StatusOK]

/-- C10 witness: level 99 — far outside the `LogLevel` enumeration — is
accepted with status `OK`. -/
theorem log_any_level_ok_witness :
    log ⟨some memMsg, fun _ => some 8⟩ [99, 0, 7] = .ret (some memMsg) (some StatusOK) false :=
  log_any_level_ok memMsg (fun _ => some 8) 99 0 7 (by decide) (by decide)

/-- C2: on a hit (`message`), `getField` asks the guest allocator for exactly
the encoded size, copies exactly the encoded bytes into the returned buffer,
stores the (pointer, length) pair little-endian into the caller's out slots —
the pair exactly bounds the bytes written — and returns `OK`. The disjointness
hypotheses say the out-parameter slots do not overlap the allocated buffer or
each other, which is the allocator's contract. -/
theorem getField_hit_exact (mem : Mem) (mallocF : Int → Option Int)
    (dataPtr dataLen rtnPtr rtnLen p : Int)
    (hok : sliceOk mem dataPtr (wrap32 (dataPtr + dataLen)) = true)
    (hname : readSlice mem dataPtr (wrap32 (dataPtr + dataLen)) = messageBytes)
    (hmalloc : mallocF (encodedMessageValue.length : Int) = some p)
    (hp0 : 0 ≤ p) (hpfit : p + (encodedMessageValue.length : Int) ≤ (mem.size : Int))
    (hpb : p + (encodedMessageValue.length : Int) < 2 ^ 31)
    (hr0 : 0 ≤ rtnPtr) (hrfit : rtnPtr + 4 ≤ (mem.size : Int)) (hrb : rtnPtr + 4 < 2 ^ 31)
    (hl0 : 0 ≤ rtnLen) (hlfit : rtnLen + 4 ≤ (mem.size : Int)) (hlb : rtnLen + 4 < 2 ^ 31)
    (hd1 : rtnPtr + 4 ≤ p ∨ p + (encodedMessageValue.length : Int) ≤ rtnPtr)
    (hd2 : rtnLen + 4 ≤ p ∨ p + (encodedMessageValue.length : Int) ≤ rtnLen)
    (hd3 : rtnLen + 4 ≤ rtnPtr ∨ rtnPtr + 4 ≤ rtnLen) :
    getField ⟨some mem, mallocF⟩ [dataPtr, dataLen, rtnPtr, rtnLen] =
      .ret (some (getFieldHitMem mem p rtnPtr rtnLen)) (some StatusOK) false ∧
    readSlice (getFieldHitMem mem p rtnPtr rtnLen) p
      (p + (encodedMessageValue.length : Int)) = encodedMessageValue ∧
    readSlice (getFieldHitMem mem p rtnPtr rtnLen) rtnPtr (rtnPtr + 4) =
      putUint32LE (toU32 p) ∧
    readSlice (getFieldHitMem mem p rtnPtr rtnLen) rtnLen (rtnLen + 4) =
      putUint32LE (toU32 (encodedMessageValue.length : Int)) ∧
    fromLEBytes (readSlice (getFieldHitMem mem p rtnPtr rtnLen) rtnPtr (rtnPtr + 4)) =
      p.toNat ∧
    fromLEBytes (readSlice (getFieldHitMem mem p rtnPtr rtnLen) rtnLen (rtnLen + 4)) =
      encodedMessageValue.length := by
  have hL0 : (0 : Int) ≤ (encodedMessageValue.length : Int) := Int.natCast_nonneg _
  have hL31 : (encodedMessageValue.length : Int) < 2 ^ 31 := by decide
  have hwL : wrap32 (encodedMessageValue.length : Int) = (encodedMessageValue.length : Int) :=
    wrap32_small _ (by omega) hL31
  have hwV : wrap32 (p + (encodedMessageValue.length : Int)) =
      p + (encodedMessageValue.length : Int) := wrap32_small _ (by omega) hpb
  have hokV : sliceOk mem p (p + (encodedMessageValue.length : Int)) = true :=
    (sliceOk_iff _ _ _).mpr ⟨hp0, by omega, hpfit⟩
  have hwP : wrap32 (rtnPtr + 4) = rtnPtr + 4 := wrap32_small _ (by omega) hrb
  have hokP : sliceOk mem rtnPtr (rtnPtr + 4) = true :=
    (sliceOk_iff _ _ _).mpr ⟨hr0, by omega, hrfit⟩
  have hwLn : wrap32 (rtnLen + 4) = rtnLen + 4 := wrap32_small _ (by omega) hlb
  have hokL : sliceOk mem rtnLen (rtnLen + 4) = true :=
    (sliceOk_iff _ _ _).mpr ⟨hl0, by omega, hlfit⟩
  have htake : encodedMessageValue.take
      ((p + (encodedMessageValue.length : Int) - p).toNat) = encodedMessageValue := by
    have h9 : (p + (encodedMessageValue.length : Int) - p).toNat =
        encodedMessageValue.length := by omega
    rw [h9, List.take_length]
  have hU1len : (putUint32LE (toU32 p)).length = 4 := rfl
  have hU2len : (putUint32LE (toU32 (encodedMessageValue.length : Int))).length = 4 := rfl
  have hiii : readSlice (getFieldHitMem mem p rtnPtr rtnLen) p
      (p + (encodedMessageValue.length : Int)) = encodedMessageValue := by
    rw [getFieldHitMem,
      readSlice_writeBytes_disjoint _ rtnLen _ p _ hp0 hl0
        (by simp only [hU2len]; omega),
      readSlice_writeBytes_disjoint _ rtnPtr _ p _ hp0 hr0
        (by simp only [hU1len]; omega),
      readSlice_writeBytes_selfEV mem p hp0]
  have hii : readSlice (getFieldHitMem mem p rtnPtr rtnLen) rtnPtr (rtnPtr + 4) =
      putUint32LE (toU32 p) := by
    rw [getFieldHitMem,
      readSlice_writeBytes_disjoint _ rtnLen _ rtnPtr _ hr0 hl0
        (by simp only [hU2len]; omega),
      readSlice_writeBytes_self4 _ rtnPtr _ hr0]
  have hi1 : readSlice (getFieldHitMem mem p rtnPtr rtnLen) rtnLen (rtnLen + 4) =
      putUint32LE (toU32 (encodedMessageValue.length : Int)) := by
    rw [getFieldHitMem, readSlice_writeBytes_self4 _ rtnLen _ hl0]
  refine ⟨?_, hiii, hii, hi1, ?_, ?_⟩
  · simp [getField, WasmModule.malloc, hwL, hmalloc, hwV, hokV, hok, hname, hwP, hokP,
      hwLn, hokL, sliceOk_writeBytes, htake, getFieldHitMem, StatusOK]
  · rw [hii, fromLE_putUint32LE _ (toU32_lt p)]
    unfold toU32
    omega
  · rw [hi1, fromLE_putUint32LE _ (toU32_lt _)]
    unfold toU32
    omega

/-- C2 witness: on the 70-byte memory with `message` at 0, allocator placing
the buffer at 8 and out slots at 56/62, the hit returns `OK` with the exact
allocate-copy-report behaviour. -/
theorem getField_hit_exact_witness :
    getField ⟨some memMsg, fun _ => some 8⟩ [0, 7, 56, 62] =
      .ret (some (getFieldHitMem memMsg 8 56 62)) (some StatusOK) false :=
  (getField_hit_exact memMsg (fun _ => some 8) 0 7 56 62 8 (by decide) (by decide) rfl
    (by decide) (by decide) (by decide) (by decide) (by decide) (by decide) (by decide)
    (by decide) (by decide) (by decide) (by decide) (by decide)).1

/-- C8: with a valid out pointer, `getCurrentTime` writes exactly the 8
little-endian bytes of the 64-bit truncated nanosecond reading at that pointer
(all other bytes unchanged), returns `OK`, never returns `InternalFailure`
(so in particular it could only do so on an invalid range), and the stored
values are monotonically non-decreasing whenever the clock readings are. -/
theorem getCurrentTime_spec (mem : Mem) (mallocF : Int → Option Int) (now now2 ptr : Int)
    (h0 : 0 ≤ ptr) (h1 : ptr + 8 ≤ (mem.size : Int)) (h2 : ptr + 8 < 2 ^ 31)
    (hnow : 0 ≤ now) (hmono : now ≤ now2) (hnow2 : now2 < 2 ^ 64) :
    getCurrentTime ⟨some mem, mallocF⟩ now [ptr] =
      .ret (some (writeBytes mem ptr (putUint64LE (toU64 now)))) (some StatusOK) false ∧
    (putUint64LE (toU64 now)).length = 8 ∧
    readSlice (writeBytes mem ptr (putUint64LE (toU64 now))) ptr (ptr + 8) =
      putUint64LE (toU64 now) ∧
    fromLEBytes (readSlice (writeBytes mem ptr (putUint64LE (toU64 now))) ptr (ptr + 8)) =
      now.toNat ∧
    (∀ i : Nat, i < ptr.toNat ∨ ptr.toNat + 8 ≤ i →
      (writeBytes mem ptr (putUint64LE (toU64 now))).byteAt i = mem.byteAt i) ∧
    fromLEBytes (putUint64LE (toU64 now)) ≤ fromLEBytes (putUint64LE (toU64 now2)) ∧
    (∀ (n : Int) (a : List Int) (mm : Option Mem) (s : Int) (e : Bool),
      getCurrentTime ⟨some mem, mallocF⟩ n a = .ret mm (some s) e →
        s ≠ StatusInternalFailure) := by
  have hw : wrap32 (ptr + 8) = ptr + 8 := wrap32_small _ (by omega) h2
  have hok : sliceOk mem ptr (ptr + 8) = true := (sliceOk_iff _ _ _).mpr ⟨h0, by omega, h1⟩
  have hself := readSlice_writeBytes_self8 mem ptr (toU64 now) h0
  refine ⟨?_, rfl, hself, ?_, ?_, ?_, ?_⟩
  · simp [getCurrentTime, hw, hok, StatusOK]
  · rw [hself, fromLE_putUint64LE _ (toU64_lt now)]
    unfold toU64
    omega
  · intro i hi
    exact writeBytes_byteAt_outside mem ptr _ i (by
      have h8 : (putUint64LE (toU64 now)).length = 8 := rfl
      omega)
  · rw [fromLE_putUint64LE _ (toU64_lt now), fromLE_putUint64LE _ (toU64_lt now2)]
    unfold toU64
    omega
  · intro n a mm s e h
    unfold getCurrentTime at h
    split at h
    · simp at h
    · dsimp only at h
      split at h
      · simp only [HostOutcome.ret.injEq, Option.some.injEq] at h
        obtain ⟨h1a, h2a, h3a⟩ := h
        subst h2a
        decide
      · exact absurd h (by simp)

/-- C8 witness: a concrete call at pointer 20 with reading 1000 (and a later
reading 2000) exhibits the full contract. -/
theorem getCurrentTime_spec_witness :
    getCurrentTime ⟨some memMsg, fun _ => some 8⟩ 1000 [20] =
      .ret (some (writeBytes memMsg 20 (putUint64LE (toU64 1000)))) (some StatusOK) false :=
  (getCurrentTime_spec memMsg (fun _ => some 8) 1000 2000 20 (by decide) (by decide)
    (by decide) (by decide) (by decide) (by decide)).1

/-- C6: the Value Codec round-trip law — decoding the encoding of any
representable `FieldValue`, through every variant and nesting, returns exactly
that value — together with the converse: `decode` accepts only encodings, so it
fails (`none`, the model of `CodecError`) on every malformed input. -/
theorem valueCodec_roundTrip :
    (∀ v : FieldValue, decode (encode v) = some v) ∧
    (∀ (bs : List Nat) (v : FieldValue), decode bs = some v → bs = encode v) :=
  ⟨decode_encode, decode_eq⟩

/-- C6 witness: a nested mapping/sequence value with a negative integer, a
string, a float bit pattern, bytes, a boolean and null round-trips. -/
theorem valueCodec_roundTrip_witness :
    decode (encode (FieldValue.mapping [("k", FieldValue.seq
      [FieldValue.integer (-300), FieldValue.str "hi", FieldValue.boolean true,
        FieldValue.null, FieldValue.bytes [⟨255, by norm_num⟩],
        FieldValue.float ⟨12345, by norm_num⟩])])) =
      some (FieldValue.mapping [("k", FieldValue.seq
        [FieldValue.integer (-300), FieldValue.str "hi", FieldValue.boolean true,
          FieldValue.null, FieldValue.bytes [⟨255, by norm_num⟩],
          FieldValue.float ⟨12345, by norm_num⟩])]) :=
  valueCodec_roundTrip.1 _

end GoExamples
